import Mathlib

/-!
Shallow embedding of src/boolean.py: a boolean-expression parser, truth-table
generator, Quine-McCluskey minimizer and Petrick covering step, together with
theorems settling the frozen claims C1-C10 about that program.

Modelling conventions
* Python strings are `List Char` (`PyStr`); Python lists are `List`.
* Python dicts are insertion-ordered association lists; Python sets are
  insertion-ordered duplicate-free lists (CPython leaves set iteration order
  unspecified; every theorem below is insensitive to the order chosen).
* Python code that can raise returns `Option`/`Except`; each distinct raise
  site gets its own error value.
* `str.isalpha` is modelled by ASCII `Char.isAlpha`; the source's method is
  Unicode-aware, and the two agree on every ASCII input (all inputs used in
  the claims).
-/

namespace QMBool

abbrev PyStr := List Char

/-- Helper turning a Lean string literal into the `List Char` model of a
Python string. -/
def pystr (s : String) : PyStr := s.data

/-- Python `str.isalpha`: true on a nonempty all-letter string. -/
def py_isalpha (s : PyStr) : Bool := decide (s ≠ []) && s.all Char.isAlpha

/-- Python lexicographic string comparison `a <= b` on code points. -/
def lexLe : PyStr → PyStr → Bool
  | [], _ => true
  | _ :: _, [] => false
  | a :: as_, b :: bs => if a < b then true else if a = b then lexLe as_ bs else false

/-- Stable insertion used to model Python `sorted` on strings. -/
def insert_sorted_str (x : PyStr) : List PyStr → List PyStr
  | [] => [x]
  | y :: ys => if lexLe x y then x :: y :: ys else y :: insert_sorted_str x ys

/-- Python `sorted` on a collection of strings. -/
def sortStrs (l : List PyStr) : List PyStr := l.foldr insert_sorted_str []

/-- Stable insertion used to model Python `sorted` / `list.sort` on ints. -/
def insert_sorted_nat (x : Nat) : List Nat → List Nat
  | [] => [x]
  | y :: ys => if x ≤ y then x :: y :: ys else y :: insert_sorted_nat x ys

/-- Python ascending sort on a list of ints. -/
def sortNat (l : List Nat) : List Nat := l.foldr insert_sorted_nat []

/-- Python `enumerate`. -/
def enumFrom {α : Type} (i : Nat) : List α → List (Nat × α)
  | [] => []
  | x :: xs => (i, x) :: enumFrom (i + 1) xs

/-- Binary digits by repeated halving; structural on a fuel that the wrapper
instantiates with `m` itself, which bounds the iteration count (each step at
least halves `m`). -/
def binDigitsAux : Nat → Nat → PyStr
  | 0, _ => []
  | fuel + 1, m =>
    if m = 0 then [] else binDigitsAux fuel (m / 2) ++ [if m % 2 = 1 then '1' else '0']

/-- Binary digits of `m` (empty for zero); helper for `pyBin`. -/
def binDigits (m : Nat) : PyStr := binDigitsAux m m

/-- Python `bin(m)[2:]`: binary digits of `m`, with `"0"` for zero (so its
length is `len(bin(m)) - 2`). -/
def pyBin (m : Nat) : PyStr := if m = 0 then ['0'] else binDigits m

/-- Python `str.zfill`: left-pad with `'0'` to the given width. -/
def zfill (width : Nat) (s : PyStr) : PyStr := List.replicate (width - s.length) '0' ++ s

/-- Python `int(s, 2)` on a nonempty string of binary digits. -/
def binToNat (s : PyStr) : Nat := s.foldl (fun a c => 2 * a + (if c = '1' then 1 else 0)) 0

/-- Python `set.add` on the insertion-ordered list model of a set. -/
def set_add (s : List PyStr) (x : PyStr) : List PyStr := if x ∈ s then s else s ++ [x]

/-- Python `set(l)`: deduplicate keeping first occurrences. -/
def set_dedup (l : List PyStr) : List PyStr := l.foldl set_add []

/-- Python `s.difference(r)` on the list model of sets. -/
def set_diff (s r : List PyStr) : List PyStr := s.filter (fun x => decide (x ∉ r))

/-- Python `s.union(r)` on the list model of sets. -/
def set_union (s r : List PyStr) : List PyStr := r.foldl set_add s

/-- Dictionary with int keys and list-of-string values, in insertion order.
The source keys `prime_implicants_list` by the decimal string `str(int(m,2))`;
`str` is injective on naturals, so `Nat` keys are an equivalent model. -/
abbrev GroupDict := List (Nat × List PyStr)

/-- Python dict lookup (`d[k]` guarded by try/except in the source). -/
def alookup (d : GroupDict) (k : Nat) : Option (List PyStr) :=
  match d with
  | [] => none
  | (k0, v) :: rest => if k0 = k then some v else alookup rest k

/-- The source's `try: d[k].append(v) except KeyError: d[k] = [v]` pattern. -/
def dict_append (d : GroupDict) (k : Nat) (v : PyStr) : GroupDict :=
  match d with
  | [] => [(k, [v])]
  | (k0, vs) :: rest =>
    if k0 = k then (k0, vs ++ [v]) :: rest else (k0, vs) :: dict_append rest k v

/-- Same as `dict_append` but skipping values already present under the key
(the source's `if v not in d[k]` check). -/
def dict_append_new (d : GroupDict) (k : Nat) (v : PyStr) : GroupDict :=
  match d with
  | [] => [(k, [v])]
  | (k0, vs) :: rest =>
    if k0 = k then (if v ∈ vs then (k0, vs) :: rest else (k0, vs ++ [v]) :: rest)
    else (k0, vs) :: dict_append_new rest k v

/-- The source's `try: del d[k] except KeyError: pass`. -/
def dict_delete (d : GroupDict) (k : Nat) : GroupDict := d.filter (fun kv => decide (kv.1 ≠ k))

/-- QM.list_flatten: concatenates the value lists in dict order. -/
def list_flatten (d : GroupDict) : List PyStr := d.flatMap (fun kv => kv.2)

/-- Sequential `Option`-valued map; the first failure aborts, like the first
exception in a Python loop. -/
def optMapM {α β : Type} (f : α → Option β) : List α → Option (List β)
  | [] => some []
  | x :: xs =>
    match f x, optMapM f xs with
    | some y, some ys => some (y :: ys)
    | _, _ => none

/-! ## The AST node classes and their `evaluate` methods -/

/-- Evaluation context: one truth-table row, a dict from variable name to the
int 0/1 coming from `itertools.product([0, 1], ...)`. -/
abbrev Ctx := List (PyStr × Nat)

/-- Python dict lookup `_context[letter]`; `none` models the `KeyError`. -/
def ctxLookup (v : PyStr) : Ctx → Option Nat
  | [] => none
  | (k, b) :: rest => if k = v then some b else ctxLookup v rest

/-- The AST node classes of the source: NotExpression, AndExpression,
OrExpression, ParenthesizedSymbol, VariableSymbol, LiteralSymbol. -/
inductive Ast where
  | notExpression : Ast → Ast
  | andExpression : List Ast → Ast
  | orExpression : List Ast → Ast
  | parenthesizedSymbol : Ast → Ast
  | variableSymbol : PyStr → Ast
  | literalSymbol : Bool → Ast

mutual

/-- The per-class `evaluate` methods. A `VariableSymbol` returns the int
`_context[letter]` in Python; every consumer only uses its truthiness
(`0` falsy, `1` truthy), which this model makes explicit with `≠ 0`.
`none` models the `KeyError` of an unbound variable. -/
def evaluate (a : Ast) (ctx : Ctx) : Option Bool :=
  match a with
  | .notExpression s =>
    match evaluate s ctx with
    | none => none
    | some b => some (!b)
  | .andExpression l => evalAndList l ctx
  | .orExpression l => evalOrList l ctx
  | .parenthesizedSymbol s => evaluate s ctx
  | .variableSymbol v =>
    match ctxLookup v ctx with
    | none => none
    | some n => some (decide (n ≠ 0))
  | .literalSymbol b => some b

/-- AndExpression.evaluate: short-circuit conjunction over the child list. -/
def evalAndList (l : List Ast) (ctx : Ctx) : Option Bool :=
  match l with
  | [] => some true
  | t :: ts =>
    match evaluate t ctx with
    | none => none
    | some b => if b then evalAndList ts ctx else some false

/-- OrExpression.evaluate: short-circuit disjunction over the child list. -/
def evalOrList (l : List Ast) (ctx : Ctx) : Option Bool :=
  match l with
  | [] => some false
  | t :: ts =>
    match evaluate t ctx with
    | none => none
    | some b => if b then some true else evalOrList ts ctx
end

mutual

/-- The variable names referenced by a node (used to state that a context
binds everything the expression mentions). -/
def astVars (a : Ast) : List PyStr :=
  match a with
  | .notExpression s => astVars s
  | .andExpression l => astVarsList l
  | .orExpression l => astVarsList l
  | .parenthesizedSymbol s => astVars s
  | .variableSymbol v => [v]
  | .literalSymbol _ => []

/-- Variables of a list of nodes. -/
def astVarsList (l : List Ast) : List PyStr :=
  match l with
  | [] => []
  | t :: ts => astVars t ++ astVarsList ts
end

/-! ## The Parser class

The parser state is the current position plus the accumulated variable-name
set (`self.pos`, `self.variableSet`).  The mutually recursive `parse_*`
methods are embedded with an explicit fuel argument; `PErr.noFuel` marks fuel
exhaustion, and `parse_total_lemma` below shows `4 * len + 8` fuel is always
enough, so the embedded `parse` never produces it. -/

def NOT_ALTERNATIVES : List PyStr := [pystr "!", pystr "not", pystr "¬", pystr "-"]
def OR_ALTERNATIVES : List PyStr := [pystr "+", pystr "or", pystr "|", pystr "v"]
def AND_ALTERNATIVES : List PyStr := [pystr ".", pystr "and", pystr "^", pystr "&"]

/-- Parser state: `self.pos` and `self.variableSet` (modelled as an
insertion-ordered duplicate-free list; it is only read through `sorted`). -/
structure PSt where
  pos : Nat
  vars : List PyStr
deriving DecidableEq

/-- Parse failure: a raised `Exception` message, or fuel exhaustion of the
embedding (shown unreachable for the fuel `parse` supplies). -/
inductive PErr where
  | syn : String → PErr
  | noFuel : PErr
deriving DecidableEq

instance {ε α : Type} [DecidableEq ε] [DecidableEq α] : DecidableEq (Except ε α)
  | .error e, .error f =>
    if h : e = f then .isTrue (by rw [h]) else .isFalse (fun c => h (by injection c))
  | .error _, .ok _ => .isFalse (fun c => Except.noConfusion c)
  | .ok _, .error _ => .isFalse (fun c => Except.noConfusion c)
  | .ok a, .ok b =>
    if h : a = b then .isTrue (by rw [h]) else .isFalse (fun c => h (by injection c))

abbrev PRes := Except PErr (Ast × PSt)

/-- The whitespace-skipping loop at the top of `consume_token`, structural on
a fuel instantiated with `t.length - p`: the loop advances the position by one
while it is below `t.length`, so that fuel is exactly enough. -/
def skipSpacesAux (t : List Char) : Nat → Nat → Nat
  | 0, p => p
  | fuel + 1, p =>
    if p < t.length ∧ t.getD p ' ' = ' ' then skipSpacesAux t fuel (p + 1) else p

/-- The whitespace-skipping loop at the top of `consume_token`. -/
def skipSpaces (t : List Char) (p : Nat) : Nat := skipSpacesAux t (t.length - p) p

/-- The letter-run loop of `consume_token`, structural on the same exact
fuel as `skipSpacesAux`. -/
def alphaRunAux (t : List Char) : Nat → Nat → PyStr
  | 0, _ => []
  | fuel + 1, p =>
    if p < t.length ∧ (t.getD p ' ').isAlpha then t.getD p ' ' :: alphaRunAux t fuel (p + 1)
    else []

/-- The letter-run loop of `consume_token`. -/
def alphaRun (t : List Char) (p : Nat) : PyStr := alphaRunAux t (t.length - p) p

/-- Body of `consume_token` after the whitespace skip, at position `q`:
`None` at end of input, a maximal letter run, or the single character at the
position, together with the new position. -/
def consume_token_at (t : List Char) (q : Nat) : Option PyStr × Nat :=
  if q < t.length then
    if (t.getD q ' ').isAlpha then (some (alphaRun t q), q + (alphaRun t q).length)
    else (some [t.getD q ' '], q + 1)
  else (none, q)

/-- Parser.consume_token: skip spaces, then return `None` at end of input, a
maximal letter run, or the single character at the position, together with the
new position. -/
def consume_token (t : List Char) (p : Nat) : Option PyStr × Nat :=
  consume_token_at t (skipSpaces t p)

/-- Parser.peek_token: look at the next token without moving the position. -/
def peek_token (t : List Char) (p : Nat) : Option PyStr := (consume_token t p).1

/-- Membership of an optional token in an alternatives list (`None in [...]`
is false in Python). -/
def tokMem (o : Option PyStr) (l : List PyStr) : Bool :=
  match o with
  | some s => decide (s ∈ l)
  | none => false

/-- Parser.parse_variable_symbol: consume a token, require it to be
alphabetic, record it in the variable set. -/
def parse_variable_symbol (t : List Char) (st : PSt) : PRes :=
  match consume_token t st.pos with
  | (none, _) => .error (.syn "Error: variable not detected")
  | (some name, p) =>
    if py_isalpha name then
      .ok (.variableSymbol name, ⟨p, if name ∈ st.vars then st.vars else st.vars ++ [name]⟩)
    else .error (.syn "Error: variable not detected")

/-- Parser.parse_literal: consume a token and require `"1"` or `"0"`. -/
def parse_literal (t : List Char) (st : PSt) : PRes :=
  match consume_token t st.pos with
  | (tok, p) =>
    if tok ≠ some (pystr "1") ∧ tok ≠ some (pystr "0") then
      .error (.syn "Error: Incorrect syntax")
    else .ok (.literalSymbol (tok = some (pystr "1")), ⟨p, st.vars⟩)

mutual

/-- Parser.parse_or: one `parse_and`, then the or-loop. -/
def parse_or (t : List Char) : Nat → PSt → PRes
  | 0, _ => .error .noFuel
  | fuel + 1, st =>
    match parse_and t fuel st with
    | .error e => .error e
    | .ok (a, st1) => parse_or_loop t fuel st1 [a]

/-- The `while token in self.OR_ALTERNATIVES` loop of `parse_or`. -/
def parse_or_loop (t : List Char) : Nat → PSt → List Ast → PRes
  | 0, _, _ => .error .noFuel
  | fuel + 1, st, terms =>
    if tokMem (peek_token t st.pos) OR_ALTERNATIVES then
      match parse_and t fuel ⟨(consume_token t st.pos).2, st.vars⟩ with
      | .error e => .error e
      | .ok (b, st2) => parse_or_loop t fuel st2 (terms ++ [b])
    else .ok (.orExpression terms, st)

/-- Parser.parse_and: one `parse_symbol`, then the and-loop. -/
def parse_and (t : List Char) : Nat → PSt → PRes
  | 0, _ => .error .noFuel
  | fuel + 1, st =>
    match parse_symbol t fuel st with
    | .error e => .error e
    | .ok (a, st1) => parse_and_loop t fuel st1 [a]

/-- The `while token in self.AND_ALTERNATIVES` loop of `parse_and`. -/
def parse_and_loop (t : List Char) : Nat → PSt → List Ast → PRes
  | 0, _, _ => .error .noFuel
  | fuel + 1, st, terms =>
    if tokMem (peek_token t st.pos) AND_ALTERNATIVES then
      match parse_symbol t fuel ⟨(consume_token t st.pos).2, st.vars⟩ with
      | .error e => .error e
      | .ok (b, st2) => parse_and_loop t fuel st2 (terms ++ [b])
    else .ok (.andExpression terms, st)

/-- Parser.parse_symbol: dispatch on the peeked token: parenthesis, not,
literal, else variable. -/
def parse_symbol (t : List Char) : Nat → PSt → PRes
  | 0, _ => .error .noFuel
  | fuel + 1, st =>
    if peek_token t st.pos = some (pystr "(") then parse_parenthesized_symbol t fuel st
    else if tokMem (peek_token t st.pos) NOT_ALTERNATIVES then parse_not t fuel st
    else if peek_token t st.pos = some (pystr "1") ∨ peek_token t st.pos = some (pystr "0")
      then parse_literal t st
    else parse_variable_symbol t st

/-- Parser.parse_not. -/
def parse_not (t : List Char) : Nat → PSt → PRes
  | 0, _ => .error .noFuel
  | fuel + 1, st =>
    match consume_token t st.pos with
    | (tok, p) =>
      if ¬ tokMem tok NOT_ALTERNATIVES then .error (.syn "Error: Invalid syntax")
      else
        match parse_symbol t fuel ⟨p, st.vars⟩ with
        | .error e => .error e
        | .ok (s, st2) => .ok (.notExpression s, st2)

/-- Parser.parse_parenthesized_symbol. -/
def parse_parenthesized_symbol (t : List Char) : Nat → PSt → PRes
  | 0, _ => .error .noFuel
  | fuel + 1, st =>
    match consume_token t st.pos with
    | (tok, p) =>
      if tok ≠ some (pystr "(") then .error (.syn "Error: Missing (")
      else
        match parse_or t fuel ⟨p, st.vars⟩ with
        | .error e => .error e
        | .ok (e, st2) =>
          match consume_token t st2.pos with
          | (tok2, p2) =>
            if tok2 ≠ some (pystr ")") then .error (.syn "Error: Missing )")
            else .ok (.parenthesizedSymbol e, ⟨p2, st2.vars⟩)
end

/-- Fuel that `parse` hands to the mutual-recursive parsers; shown sufficient
by `parse_total_lemma`. -/
def parseFuel (s : String) : Nat := 4 * s.length + 8

/-- Parser.parse: run `parse_or` from position 0, reject trailing input, and
expose the sorted variable list (`order_variable_set`). -/
def parse (s : String) : Except PErr (Ast × List PyStr) :=
  match parse_or s.data (parseFuel s) ⟨0, []⟩ with
  | .error e => .error e
  | .ok (a, st) =>
    match consume_token s.data st.pos with
    | (some _, _) => .error (.syn "Error: Parse error")
    | (none, _) => .ok (a, sortStrs st.vars)

/-! ## GenerateContext -/

/-- `itertools.product([0, 1], repeat = n)` in its documented order: tuples in
lexicographic order, last position varying fastest. -/
def prod01 : Nat → List (List Nat)
  | 0 => [[]]
  | n + 1 => (prod01 n).flatMap (fun tuples => [tuples ++ [0], tuples ++ [1]])

/-- GenerateContext.evaluate_ast_row: one dict zipping the variable order
per combination row. -/
def evaluate_ast_row (vars : List PyStr) : List Ctx :=
  (prod01 vars.length).map (fun tuples => vars.zip tuples)

/-- GenerateContext.generate_truths: evaluate the AST on every row (the source
reads the module-level `ast`; here the AST is an explicit argument).  `none`
models an evaluation `KeyError`. -/
def generate_truths (a : Ast) (vars : List PyStr) : Option (List Bool) :=
  optMapM (evaluate a) (evaluate_ast_row vars)

/-! ## The QM class -/

/-- Failures of the QM pipeline, one per raise site:
`mintermValue` is the `ValueError` of `int('', 2)` in `generate_min_terms`
(zero-variable input); `groupIndex` the `IndexError` of `self.minterms[-1]`
in `group_terms` on an empty minterm list; `groupFuel` fuel exhaustion of the
embedded merge loop; `petrickIndex`/`petrickMin` the `IndexError`/`ValueError`
of `petrick[0]` / `min([])` in `petricks_method`. -/
inductive QMErr where
  | mintermValue : QMErr
  | groupIndex : QMErr
  | groupFuel : QMErr
  | petrickIndex : QMErr
  | petrickMin : QMErr
deriving DecidableEq

/-- QM.generate_min_terms: each context row, read in dict (insertion) order,
becomes the int of its concatenated 0/1 digits.  An empty row gives
`int('', 2)`, a `ValueError`. -/
def generate_min_terms (context : List Ctx) : Option (List Nat) :=
  optMapM
    (fun row =>
      if row.isEmpty then none
      else some (binToNat (row.map (fun kv => if kv.2 = 0 then '0' else '1'))))
    context

/-- QM.remove_dont_cares: `pos_flags` collects the positions whose output row
is truthy, then those positions are popped from the minterm list with a
shrinking offset.  (The source also rebuilds `self.output_row` from
`self.output_row[row]`, a value never read again; that dead store is not
modelled.) -/
def remove_dont_cares (minterms : List Nat) (output_row : List Bool) : List Nat :=
  let pos_flags := ((enumFrom 0 output_row).filter (fun pr => pr.2)).map (fun pr => pr.1)
  (pos_flags.foldl (fun acc pos => (acc.1.eraseIdx (pos - acc.2), acc.2 + 1)) (minterms, 0)).1

/-- Loop body of QM.does_bit_differ_by_one, iterating `i` over the indices of
the first string (the source indexes the second string with the same `i`;
both strings have equal length at every call site).  Structural on a fuel
instantiated with `y.length - i`, which is exactly the remaining iterations,
so fuel zero is the loop's normal exit. -/
def dbdAux (y z : PyStr) : Nat → Nat → Nat → Nat → Bool × Option Nat
  | 0, _, diff_pos, count => if count = 0 then (false, none) else (true, some diff_pos)
  | fuel + 1, i, diff_pos, count =>
    if y.getD i ' ' ≠ z.getD i ' ' then
      if count + 1 > 1 then (false, none) else dbdAux y z fuel (i + 1) i (count + 1)
    else dbdAux y z fuel (i + 1) diff_pos count

/-- QM.does_bit_differ_by_one: whether two patterns differ in exactly one
position, and that position. -/
def does_bit_differ_by_one (y z : PyStr) : Bool × Option Nat :=
  dbdAux y z y.length 0 0 0

/-- Replacing the differing bit: `y[:pos] + '-' + y[pos+1:]`. -/
def replace_with_dash (y : PyStr) (pos : Nat) : PyStr :=
  y.take pos ++ ['-'] ++ y.drop (pos + 1)

/-- Replace the leftmost `'-'` of a pattern by the given character. -/
def replace_first_dash : PyStr → Char → PyStr
  | [], _ => []
  | c :: cs, b => if c = '-' then b :: cs else c :: replace_first_dash cs b

/-- Fill the dashes of a pattern, left to right, with the given digits (the
source tracks successive dash positions with `prev_term`/`find('-')`). -/
def fill_dashes : PyStr → PyStr → PyStr
  | p, [] => p
  | p, b :: bs => fill_dashes (replace_first_dash p b) bs

/-- QM.find_merged_minterms: the concrete minterms a pattern subsumes, by
filling its `'-'` positions with every combination of binary digits, in
counting order.  The source returns decimal strings `str(int(m, 2))`; `str`
being injective, the values are kept as `Nat`. -/
def find_merged_minterms (minterm : PyStr) : List Nat :=
  let differed_bit := minterm.count '-'
  if differed_bit = 0 then [binToNat minterm]
  else
    (List.range (2 ^ differed_bit)).map
      (fun i => binToNat (fill_dashes minterm (zfill differed_bit (pyBin i))))

/-- State threaded through one merge pass of QM.group_terms: the new group
dict being built, the `break_loop` flag, and the `changed_minterms` set. -/
structure MergeState where
  groups : GroupDict
  break_loop : Bool
  changed_minterms : List PyStr

/-- One `y`/`z` comparison inside the merge pass: on a one-bit difference the
dashed pattern joins new group `x` (deduplicated), the pass is marked as
having merged, and both source terms are marked changed. -/
def merge_pair (x : Nat) (s : MergeState) (y z : PyStr) : MergeState :=
  match does_bit_differ_by_one y z with
  | (true, some diffPos) =>
    { groups := dict_append_new s.groups x (replace_with_dash y diffPos)
      break_loop := false
      changed_minterms := set_add (set_add s.changed_minterms y) z }
  | _ => s

/-- The body for one `x` (one pair of adjacent population-count groups):
every term of group `keys[x]` against every term of group `keys[x+1]`. -/
def merge_x (first_set : GroupDict) (keys : List Nat) (s : MergeState) (x : Nat) :
    MergeState :=
  let ys := (alookup first_set (keys.getD x 0)).getD []
  let zs := (alookup first_set (keys.getD (x + 1) 0)).getD []
  ys.foldl (fun s1 y => zs.foldl (fun s2 z => merge_pair x s2 y z) s1) s

/-- One full merge pass over `sorted(first_set_groups.keys())`. -/
def merge_pass (first_set : GroupDict) : MergeState :=
  let keys := sortNat (first_set.map (fun kv => kv.1))
  (List.range (keys.length - 1)).foldl (merge_x first_set keys) ⟨[], true, []⟩

/-- The `while True` merge loop of QM.group_terms: after each pass the terms
untouched by merging join the prime-implicant set; the loop stops on a pass
with no merges.  The fuel bounds the pass count (each pass adds a dash, so
`bin_length + 2` passes always suffice; the claims only evaluate this on
concrete inputs, where the fuel is visibly enough). -/
def group_terms_loop : Nat → GroupDict → List PyStr → Option (List PyStr)
  | 0, _, _ => none
  | fuel + 1, groups, primes =>
    let st := merge_pass groups
    let unchanged := set_diff (set_dedup (list_flatten groups)) st.changed_minterms
    let primes' := set_union primes unchanged
    if st.break_loop then some primes' else group_terms_loop fuel st.groups primes'

/-- QM.group_terms: build the minterms, drop the flagged rows, sort, group by
population count with width `len(bin(max))-2`, and run the merge loop.
`groupIndex` is the `IndexError` of `self.minterms[-1]` when no minterm
survives. -/
def group_terms (minterms0 : List Nat) (output_row : List Bool) :
    Except QMErr (List PyStr) :=
  let minterms := sortNat (remove_dont_cares minterms0 output_row)
  match minterms.getLast? with
  | none => .error .groupIndex
  | some last =>
    let bin_length := (pyBin last).length
    let groups :=
      minterms.foldl
        (fun d term => dict_append d ((pyBin term).count '1') (zfill bin_length (pyBin term)))
        []
    match group_terms_loop (bin_length + 2) groups [] with
    | none => .error .groupFuel
    | some primes => .ok primes

/-- QM.generate_prime_implicants: map each subsumed minterm to the prime
implicants covering it, iterating the prime-implicant set in its
(insertion-order-modelled) order. -/
def generate_prime_implicants (primes : List PyStr) : GroupDict :=
  primes.foldl
    (fun d i => (find_merged_minterms i).foldl (fun d2 j => dict_append_new d2 j i) d)
    []

/-- QM.generate_essential_prime_implicants: implicants that are the sole
coverer of some minterm, deduplicated in encounter order. -/
def generate_essential_prime_implicants (pl : GroupDict) : List PyStr :=
  pl.foldl
    (fun ret kv => if kv.2.length = 1 then set_add ret (kv.2.headD []) else ret)
    []

/-- QM.generate_variables_from_minterm: position `i` renders as
`vars[i] + "'"` on `'0'`, `vars[i]` on `'1'`, nothing on `'-'`.
(The source indexes the variable list at `i`; at every call site the pattern is no
longer than the variable list, so the default never fires.) -/
def generate_variables_from_minterm (vars : List PyStr) (minterm : PyStr) :
    List PyStr :=
  (List.range minterm.length).foldl
    (fun ret i =>
      let current_var := vars.getD i []
      if minterm.getD i ' ' = '0' then ret ++ [current_var ++ ['\'']]
      else if minterm.getD i ' ' = '1' then ret ++ [current_var]
      else ret)
    []

/-- The clash test of QM.multiply_minterms on one literal of the first term:
`x + "'" in exp2 or (len(x) == 2 and x[0] in exp2)`. -/
def mm_clash (x : PyStr) (exp2 : List PyStr) : Bool :=
  decide ((x ++ ['\'']) ∈ exp2) || (decide (x.length = 2) && decide (x.take 1 ∈ exp2))

/-- First loop of QM.multiply_minterms: copy `exp1` into `ret`, aborting with
the empty product (`none`) as soon as a literal clashes with `exp2`. -/
def multiply_minterms_go (exp2 : List PyStr) : List PyStr → List PyStr → Option (List PyStr)
  | [], ret => some ret
  | x :: xs, ret =>
    if mm_clash x exp2 then none else multiply_minterms_go exp2 xs (ret ++ [x])

/-- QM.multiply_minterms: product of two literal terms; `[]` when a literal
and its negation would meet, otherwise `exp1` followed by the members of
`exp2` not already present. -/
def multiply_minterms (exp1 exp2 : List PyStr) : List PyStr :=
  match multiply_minterms_go exp2 exp1 [] with
  | none => []
  | some ret => exp2.foldl (fun r x => if x ∈ r then r else r ++ [x]) ret

/-- QM.multiply_expressions: all pairwise products, dropping empty ones. -/
def multiply_expressions (exp1 exp2 : List (List PyStr)) : List (List PyStr) :=
  exp1.foldl
    (fun ret x =>
      exp2.foldl
        (fun r2 y =>
          let multi_exp := multiply_minterms x y
          if multi_exp.length ≠ 0 then r2 ++ [multi_exp] else r2)
        ret)
    []

/-- Python `min(l, key=len)`: the first element of minimal length; `none`
models the `ValueError` on an empty list. -/
def min_by_len (l : List (List PyStr)) : Option (List PyStr) :=
  match l with
  | [] => none
  | x :: xs => some (xs.foldl (fun best y => if y.length < best.length then y else best) x)

/-- QM.petricks_method: render every minterm's covering implicants as literal
terms, multiply the sums down to one sum of products, pick the first
minimal-length term, and append the essential implicants' terms. -/
def petricks_method (pl : GroupDict) (essentials : List PyStr) (vars : List PyStr) :
    Except QMErr (List (List PyStr)) :=
  let petrick := pl.map (fun kv => kv.2.map (generate_variables_from_minterm vars))
  match petrick with
  | [] => .error .petrickIndex
  | p :: ps =>
    match min_by_len (ps.foldl multiply_expressions p) with
    | none => .error .petrickMin
    | some t => .ok (t :: essentials.map (generate_variables_from_minterm vars))

/-- The observable outcome of QM.generate_solution: the
`'There is no solution to this expression.'` message (printed when
`not any(self.function)`), or the printed list of literal terms. -/
inductive QMOut where
  | noSolution : QMOut
  | solution : List (List PyStr) → QMOut
deriving DecidableEq

/-- QM.generate_solution: group, cover, strip essential-covered minterms,
run Petrick's method if any remain, and classify the final function. -/
def generate_solution (context : List Ctx) (output_row : List Bool)
    (vars : List PyStr) : Except QMErr QMOut :=
  match generate_min_terms context with
  | none => .error .mintermValue
  | some minterms0 =>
    match group_terms minterms0 output_row with
    | .error e => .error e
    | .ok primes =>
      let prime_implicants_list := generate_prime_implicants primes
      let essential_prime_implicants :=
        generate_essential_prime_implicants prime_implicants_list
      let remaining :=
        essential_prime_implicants.foldl
          (fun d x => (find_merged_minterms x).foldl (fun d2 y => dict_delete d2 y) d)
          prime_implicants_list
      match
        (if remaining.isEmpty then
          .ok (essential_prime_implicants.map (generate_variables_from_minterm vars))
        else petricks_method remaining essential_prime_implicants vars :
          Except QMErr (List (List PyStr)))
      with
      | .error e => .error e
      | .ok function =>
        .ok (if function.all List.isEmpty then .noSolution else .solution function)

/-! ## The end-to-end pipeline of the main loop -/

/-- A failure anywhere in the pipeline. -/
inductive PipeErr where
  | parseE : PErr → PipeErr
  | evalE : PipeErr
  | qmE : QMErr → PipeErr
deriving DecidableEq

/-- The main loop's processing of one input line: parse, generate the truth
table, run QM. -/
def pipeline (s : String) : Except PipeErr QMOut :=
  match parse s with
  | .error e => .error (.parseE e)
  | .ok (a, vars) =>
    match generate_truths a vars with
    | none => .error .evalE
    | some output_row =>
      match generate_solution (evaluate_ast_row vars) output_row vars with
      | .error e => .error (.qmE e)
      | .ok r => .ok r

/-- The pipeline stopped after QM.group_terms, exposing the prime-implicant
set (used by the claims about patterns and grouping). -/
def pipeline_primes (s : String) : Except PipeErr (List PyStr) :=
  match parse s with
  | .error e => .error (.parseE e)
  | .ok (a, vars) =>
    match generate_truths a vars with
    | none => .error .evalE
    | some output_row =>
      match generate_min_terms (evaluate_ast_row vars) with
      | none => .error (.qmE .mintermValue)
      | some minterms0 =>
        match group_terms minterms0 output_row with
        | .error e => .error (.qmE e)
        | .ok primes => .ok primes

/-! ## Definitions supporting the claim statements -/

/-- The binary encoding of `i` on `n` bits, most significant first (row `i`
of the standard truth table). -/
def natToBits : Nat → Nat → List Nat
  | 0, _ => []
  | n + 1, i => natToBits n (i / 2) ++ [i % 2]

/-- A literal over a single-letter variable name: one letter, optionally
negated by a trailing apostrophe (the restricted literal shape of the amended
claim C9). -/
def wfLitB (x : PyStr) : Bool :=
  match x with
  | [c] => c.isAlpha
  | [c, q] => c.isAlpha && decide (q = '\'')
  | _ => false

/-- A literal and its negation, per the program's rendering: negation appends
an apostrophe. -/
abbrev isComplement (a b : PyStr) : Prop := b = a ++ ['\''] ∨ a = b ++ ['\'']

/-- The result is not the fuel-exhaustion marker. -/
def noNF (r : PRes) : Prop := r ≠ .error .noFuel

/-- A successful parse strictly advanced the position past `p`. -/
def okAdvLt (r : PRes) (p : Nat) : Prop := ∀ a st2, r = .ok (a, st2) → p < st2.pos

/-- A successful parse did not move the position before `p`. -/
def okAdvLe (r : PRes) (p : Nat) : Prop := ∀ a st2, r = .ok (a, st2) → p ≤ st2.pos


/-! ## Spec-side definitions used for comparison

The round-trip claim compares the program's output against the spec's reading
of a minimized function; the next two definitions follow the spec's words
(a minimized function is a disjunction of literal terms, a literal with a
trailing apostrophe denotes the negated variable) and are deliberately not
taken from the source. -/

/-- Spec reading of one rendered literal under a context. -/
def spec_eval_literal (ctx : Ctx) (lit : PyStr) : Bool :=
  if lit.getLast? = some '\'' then decide ((ctxLookup lit.dropLast ctx).getD 0 = 0)
  else decide ((ctxLookup lit ctx).getD 0 ≠ 0)

/-- Spec reading of a list of literal terms: the disjunction of the
conjunctions of their literals. -/
def spec_eval_terms (terms : List (List PyStr)) (ctx : Ctx) : Bool :=
  terms.any (fun t => t.all (spec_eval_literal ctx))

/-- The AST the parser builds for `"(A.B)+C"` (checked below). -/
def astABC : Ast :=
  .orExpression
    [.andExpression
      [.parenthesizedSymbol
        (.orExpression
          [.andExpression [.variableSymbol (pystr "A"), .variableSymbol (pystr "B")]])],
     .andExpression [.variableSymbol (pystr "C")]]

/-! ## Claims C1-C6: the QM pipeline on concrete inputs -/

/-- Claim C1 (code bug): the minimized function is not logically equivalent to
the original AST.  On `"(A.B)+C"` the pipeline returns the terms
`A'C' + B'C'` (a cover of the complement: `remove_dont_cares` pops exactly
the true-output rows, contrary to its own comment), and at the context
`A=0, B=0, C=1` the original AST evaluates true while the returned
disjunction evaluates false. -/
theorem c1_roundtrip_fails :
    pipeline "(A.B)+C" =
      .ok (.solution [[pystr "A'", pystr "C'"], [pystr "B'", pystr "C'"]]) ∧
    parse "(A.B)+C" = .ok (astABC, [pystr "A", pystr "B", pystr "C"]) ∧
    evaluate astABC [(pystr "A", 0), (pystr "B", 0), (pystr "C", 1)] = some true ∧
    spec_eval_terms [[pystr "A'", pystr "C'"], [pystr "B'", pystr "C'"]]
      [(pystr "A", 0), (pystr "B", 0), (pystr "C", 1)] = false :=
  ⟨rfl, rfl, rfl, rfl⟩

/-- Claim C2 (code bug): after minterm construction and the discard step the
surviving minterms are exactly the FALSE rows, not the true ones.  For
`"(A.B)+C"` the minterms are `0..7`, the outputs mark rows `1,3,5,6,7` true,
and `remove_dont_cares` leaves `[0, 2, 4]` - the false rows. -/
theorem c2_survivors_are_false_rows :
    generate_min_terms (evaluate_ast_row [pystr "A", pystr "B", pystr "C"]) =
      some [0, 1, 2, 3, 4, 5, 6, 7] ∧
    generate_truths astABC [pystr "A", pystr "B", pystr "C"] =
      some [false, true, false, true, false, true, true, true] ∧
    remove_dont_cares [0, 1, 2, 3, 4, 5, 6, 7]
      [false, true, false, true, false, true, true, true] = [0, 2, 4] ∧
    ([0, 2, 4] : List Nat) ≠ [1, 3, 5, 6, 7] :=
  ⟨rfl, rfl, rfl, by decide⟩

/-- Claim C3 (code bug): on `"(A.B)+C"` the computed prime implicants are
`{0-0, -00}` - the patterns for `C` (`--1`) and `AB` (`11-`) are absent - and
the minimized function is `A'C' + B'C'`, not `{C, AB}` (the term `C` does not
even occur in it). -/
theorem c3_scenario_fails :
    pipeline_primes "(A.B)+C" = .ok [pystr "0-0", pystr "-00"] ∧
    pystr "--1" ∉ [pystr "0-0", pystr "-00"] ∧
    pystr "11-" ∉ [pystr "0-0", pystr "-00"] ∧
    pipeline "(A.B)+C" =
      .ok (.solution [[pystr "A'", pystr "C'"], [pystr "B'", pystr "C'"]]) ∧
    [pystr "C"] ∉ [[pystr "A'", pystr "C'"], [pystr "B'", pystr "C'"]] ∧
    [pystr "A", pystr "B"] ∉ [[pystr "A'", pystr "C'"], [pystr "B'", pystr "C'"]] :=
  ⟨rfl, by decide, by decide, rfl, by decide, by decide⟩

/-- Claim C4 (code bug): an unsatisfiable expression is supposed to end in the
`NoSatisfyingAssignment` outcome (the program's no-solution result).  The
variable-free unsatisfiable input `"0"` instead dies with the `ValueError` of
`int('', 2)` inside `generate_min_terms`.  (For the one-variable example
`"A.!A"` the no-solution result is reached - via the inverted discard step,
which keeps every row and merges the full cube to the empty term.) -/
theorem c4_unsat_crash_on_zero_vars :
    parse "0" = .ok (.orExpression [.andExpression [.literalSymbol false]], []) ∧
    generate_truths (.orExpression [.andExpression [.literalSymbol false]]) [] =
      some [false] ∧
    pipeline "0" = .error (.qmE .mintermValue) ∧
    pipeline "0" ≠ .ok .noSolution ∧
    pipeline "A.!A" = .ok .noSolution :=
  ⟨rfl, rfl, rfl, by decide, rfl⟩

/-- Claim C5 (code bug): the tautology `"A + !A"` is supposed to yield the
single empty-literal term; instead every (all-true) row is popped by the
inverted discard step and `group_terms` dies with the `IndexError` of
`self.minterms[-1]` on the empty minterm list. -/
theorem c5_tautology_crash :
    pipeline "A + !A" = .error (.qmE .groupIndex) ∧
    pipeline "A + !A" ≠ .ok (.solution [[]]) :=
  ⟨rfl, by decide⟩

/-- Claim C6 (code bug): implicant patterns are padded to
`len(bin(max survivor)) - 2`, not to the variable count.  On `"A + B"`
(two variables) the only surviving minterm is `0`, the computed prime
implicant is the single-character pattern `0`, and its length 1 differs from
the variable count 2. -/
theorem c6_pattern_width_mismatch :
    parse "A + B" =
      .ok (.orExpression
            [.andExpression [.variableSymbol (pystr "A")],
             .andExpression [.variableSymbol (pystr "B")]],
           [pystr "A", pystr "B"]) ∧
    pipeline_primes "A + B" = .ok [pystr "0"] ∧
    (pystr "0").length = 1 ∧
    ([pystr "A", pystr "B"] : List PyStr).length = 2 ∧
    (1 : Nat) ≠ 2 :=
  ⟨rfl, rfl, rfl, rfl, by decide⟩

/-! ## Claim C10: alphabetic operator spellings in value position -/

/-- Claim C10 counterexample: the claim lists `'not'` among the alphabetic
operator spellings accepted as variables in value position, but `parse_symbol`
routes `'not'` (a NOT alternative) to `parse_not`, so the input `"not"` is a
parse error, not the variable `not`. -/
theorem c10_counterexample :
    parse "not" = .error (.syn "Error: variable not detected") ∧
    parse "not" ≠
      .ok (.orExpression [.andExpression [.variableSymbol (pystr "not")]], [pystr "not"]) :=
  ⟨rfl, by
    intro h
    rw [show parse "not" = .error (.syn "Error: variable not detected") from rfl] at h
    exact Except.noConfusion h⟩

/-- Claim C10 as amended: for the alphabetic operator spellings `'or'`,
`'and'` and `'v'` (but not `'not'`), whenever such a token is peeked where a
value is expected, `parse_symbol` accepts it as a variable of that name,
recording it in the variable set. -/
theorem c10_amended (t : List Char) (st : PSt) (fuel : Nat) (tok : PyStr) (p : Nat)
    (htok : tok = pystr "or" ∨ tok = pystr "and" ∨ tok = pystr "v")
    (hp : consume_token t st.pos = (some tok, p)) :
    parse_symbol t (fuel + 1) st =
      .ok (.variableSymbol tok,
        ⟨p, if tok ∈ st.vars then st.vars else st.vars ++ [tok]⟩) := by
  have hpk : peek_token t st.pos = some tok := by rw [peek_token, hp]
  rcases htok with h | h | h <;> subst h <;>
    simp only [parse_symbol, hpk, parse_variable_symbol, hp] <;>
    rw [if_neg (by decide), if_neg (by decide), if_neg (by decide), if_pos (by decide)]

/-- Witness for `c10_amended`: the peeked token of `"or + or"` at position 0
is `or`, the amended theorem applies there, and `"or + or"` parses to a
two-term disjunction over the single variable `or`. -/
theorem c10_witness :
    consume_token (pystr "or + or") 0 = (some (pystr "or"), 2) ∧
    parse_symbol (pystr "or + or") 5 ⟨0, []⟩ =
      .ok (.variableSymbol (pystr "or"), ⟨2, [pystr "or"]⟩) ∧
    parse "or + or" =
      .ok (.orExpression
            [.andExpression [.variableSymbol (pystr "or")],
             .andExpression [.variableSymbol (pystr "or")]],
           [pystr "or"]) :=
  ⟨rfl, c10_amended (pystr "or + or") ⟨0, []⟩ 4 (pystr "or") 2 (Or.inl rfl) rfl, rfl⟩

/-! ## Claim C9: Petrick term multiplication -/

/-- Structure of a wellformed single-letter literal. -/
theorem wfLitB_shape (x : PyStr) (h : wfLitB x = true) :
    ∃ c, c.isAlpha = true ∧ (x = [c] ∨ x = [c, '\'']) := by
  match x with
  | [c] => exact ⟨c, by simpa [wfLitB] using h, Or.inl rfl⟩
  | [c, q] =>
    have h2 : c.isAlpha = true ∧ q = '\'' := by simpa [wfLitB] using h
    exact ⟨c, h2.1, Or.inr (by rw [h2.2])⟩
  | [] => simp [wfLitB] at h
  | c :: q :: r :: rest => simp [wfLitB] at h

/-- The clash test of `multiply_minterms` detects exactly the complement
pairs, provided all literals are wellformed single-letter literals. -/
theorem mm_clash_iff (x : PyStr) (exp2 : List PyStr) (hx : wfLitB x = true)
    (h2 : ∀ y ∈ exp2, wfLitB y = true) :
    mm_clash x exp2 = true ↔ ∃ y ∈ exp2, isComplement x y := by
  obtain ⟨c, hca, hshape⟩ := wfLitB_shape x hx
  have hq : ('\'' : Char).isAlpha = false := by decide
  rcases hshape with h | h <;> subst h
  · constructor
    · intro hcl
      have : [c, '\''] ∈ exp2 := by
        simp only [mm_clash, List.length_cons, List.length_nil] at hcl
        simpa using hcl
      exact ⟨[c, '\''], this, Or.inl rfl⟩
    · rintro ⟨y, hy, hcomp | hcomp⟩
      · subst hcomp
        have hy2 : [c, '\''] ∈ exp2 := by simpa using hy
        simp [mm_clash, hy2]
      · exfalso
        have hl : ([c] : PyStr).length = y.length + 1 := by rw [hcomp]; simp
        have hy1 : y = [] := by
          rcases y with _ | ⟨d, ys⟩
          · rfl
          · simp at hl
        subst hy1
        simp at hcomp
        rw [hcomp] at hca
        rw [hca] at hq
        exact Bool.noConfusion hq
  · have h3 : [c, '\'', '\''] ∉ exp2 := by
      intro hmem
      have := h2 _ hmem
      simp [wfLitB] at this
    constructor
    · intro hcl
      simp [mm_clash, h3, List.take] at hcl
      exact ⟨[c], hcl, Or.inr rfl⟩
    · rintro ⟨y, hy, hcomp | hcomp⟩
      · subst hcomp
        exact absurd (by simpa using hy) h3
      · have hyc : y = [c] := by
          rcases y with _ | ⟨d, _ | ⟨e, ys⟩⟩
          · simp at hcomp
          · simp at hcomp; rw [hcomp]
          · have := congrArg List.length hcomp
            simp at this
        subst hyc
        simp only [mm_clash]
        simp [hy, List.take]

/-- The first loop of `multiply_minterms` aborts exactly on a clash. -/
theorem multiply_minterms_go_none (exp2 : List PyStr) :
    ∀ (xs ret : List PyStr),
      (multiply_minterms_go exp2 xs ret = none ↔ ∃ x ∈ xs, mm_clash x exp2 = true) := by
  intro xs
  induction xs with
  | nil => intro ret; simp [multiply_minterms_go]
  | cons x xs ih =>
    intro ret
    by_cases hx : mm_clash x exp2 = true
    · simp [multiply_minterms_go, hx]
    · simp only [multiply_minterms_go, if_neg hx]
      rw [ih]
      constructor
      · rintro ⟨x2, hx2, hcl⟩; exact ⟨x2, List.mem_cons_of_mem _ hx2, hcl⟩
      · rintro ⟨x2, hx2, hcl⟩
        rcases List.mem_cons.mp hx2 with h | h
        · subst h; exact absurd hcl hx
        · exact ⟨x2, h, hcl⟩

/-- Without a clash, the first loop copies `exp1` behind the accumulator. -/
theorem multiply_minterms_go_some (exp2 : List PyStr) :
    ∀ (xs ret : List PyStr), (∀ x ∈ xs, mm_clash x exp2 = false) →
      multiply_minterms_go exp2 xs ret = some (ret ++ xs) := by
  intro xs
  induction xs with
  | nil => intro ret _; simp [multiply_minterms_go]
  | cons x xs ih =>
    intro ret h
    have hx : mm_clash x exp2 = false := h x (List.mem_cons_self x xs)
    simp only [multiply_minterms_go, hx]
    rw [if_neg (by simp [hx])]
    rw [ih (ret ++ [x]) (fun x2 hx2 => h x2 (List.mem_cons_of_mem _ hx2))]
    simp

/-- The second loop of `multiply_minterms` appends the not-yet-present
members of `exp2`, in order. -/
theorem mm_foldl_dedup :
    ∀ (exp2 : List PyStr), exp2.Nodup → ∀ ret : List PyStr,
      exp2.foldl (fun r x => if x ∈ r then r else r ++ [x]) ret =
        ret ++ exp2.filter (fun y => decide (y ∉ ret)) := by
  intro exp2
  induction exp2 with
  | nil => intro _ ret; simp
  | cons y ys ih =>
    intro hnd ret
    have hy_ys : y ∉ ys := (List.nodup_cons.mp hnd).1
    have hys : ys.Nodup := (List.nodup_cons.mp hnd).2
    simp only [List.foldl_cons, List.filter_cons]
    by_cases hy : y ∈ ret
    · rw [if_pos hy, ih hys ret]
      simp [hy]
    · rw [if_neg hy, ih hys (ret ++ [y])]
      have hfc : ys.filter (fun z => decide (z ∉ ret ++ [y])) =
          ys.filter (fun z => decide (z ∉ ret)) := by
        apply List.filter_congr
        intro z hz
        have hzy : z ≠ y := fun h => hy_ys (h ▸ hz)
        simp [List.mem_append, hzy]
      rw [hfc]
      simp [hy, List.append_assoc]

/-- Claim C9 counterexample: with the multi-letter variable name `AB` (a
legal tokenizer name), the product of `{AB'}` and `{AB}` contains both the
literal `AB` and its negation `AB'` instead of being absorbed to the empty
result: the clash test only un-negates literals of length 2. -/
theorem c9_counterexample :
    py_isalpha (pystr "AB") = true ∧
    isComplement (pystr "AB") (pystr "AB'") ∧
    multiply_minterms [pystr "AB'"] [pystr "AB"] = [pystr "AB'", pystr "AB"] ∧
    multiply_minterms [pystr "AB'"] [pystr "AB"] ≠ [] :=
  ⟨rfl, Or.inl rfl, rfl, by decide⟩

/-- Claim C9 as amended: restricted to duplicate-free, internally
consistent terms of single-letter literals (and not both terms empty),
`multiply_minterms` returns the empty result exactly when the union would
contain a literal together with its negation, and otherwise returns the
duplicate-free union of the two literal sets. -/
theorem c9_amended (exp1 exp2 : List PyStr)
    (h1 : ∀ x ∈ exp1, wfLitB x = true) (h2 : ∀ y ∈ exp2, wfLitB y = true)
    (hn1 : exp1.Nodup) (hn2 : exp2.Nodup)
    (hc1 : ∀ x ∈ exp1, ∀ x2 ∈ exp1, ¬ isComplement x x2)
    (hc2 : ∀ y ∈ exp2, ∀ y2 ∈ exp2, ¬ isComplement y y2)
    (hne : ¬ (exp1 = [] ∧ exp2 = [])) :
    (multiply_minterms exp1 exp2 = [] ↔
      ∃ a ∈ exp1 ++ exp2, ∃ b ∈ exp1 ++ exp2, isComplement a b) ∧
    ((¬ ∃ a ∈ exp1 ++ exp2, ∃ b ∈ exp1 ++ exp2, isComplement a b) →
      multiply_minterms exp1 exp2 =
        exp1 ++ exp2.filter (fun y => decide (y ∉ exp1)) ∧
      (multiply_minterms exp1 exp2).Nodup ∧
      (∀ z, z ∈ multiply_minterms exp1 exp2 ↔ z ∈ exp1 ∨ z ∈ exp2)) := by
  by_cases hcl : ∃ x ∈ exp1, mm_clash x exp2 = true
  · -- a clash: the product is empty and a cross complement pair exists
    have hmm : multiply_minterms exp1 exp2 = [] := by
      unfold multiply_minterms
      rw [(multiply_minterms_go_none exp2 exp1 []).mpr hcl]
    obtain ⟨x, hx, hxcl⟩ := hcl
    obtain ⟨y, hy, hxy⟩ := (mm_clash_iff x exp2 (h1 x hx) h2).mp hxcl
    constructor
    · rw [hmm]
      simp only [true_iff]
      exact ⟨x, List.mem_append_left _ hx, y, List.mem_append_right _ hy, hxy⟩
    · intro hno
      exact absurd ⟨x, List.mem_append_left _ hx, y, List.mem_append_right _ hy, hxy⟩ hno
  · -- no clash: the product is the deduplicated union
    push_neg at hcl
    have hcl2 : ∀ x ∈ exp1, mm_clash x exp2 = false := by
      intro x hx
      have := hcl x hx
      exact Bool.eq_false_iff.mpr this
    have hmm : multiply_minterms exp1 exp2 =
        exp1 ++ exp2.filter (fun y => decide (y ∉ exp1)) := by
      unfold multiply_minterms
      rw [multiply_minterms_go_some exp2 exp1 [] hcl2]
      simp only [List.nil_append]
      exact mm_foldl_dedup exp2 hn2 exp1
    have hnopair : ¬ ∃ a ∈ exp1 ++ exp2, ∃ b ∈ exp1 ++ exp2, isComplement a b := by
      rintro ⟨a, ha, b, hb, hab⟩
      rcases List.mem_append.mp ha with ha1 | ha2 <;>
        rcases List.mem_append.mp hb with hb1 | hb2
      · exact hc1 a ha1 b hb1 hab
      · have hc := (mm_clash_iff a exp2 (h1 a ha1) h2).mpr ⟨b, hb2, hab⟩
        rw [hcl2 a ha1] at hc
        exact Bool.noConfusion hc
      · have hc := (mm_clash_iff b exp2 (h1 b hb1) h2).mpr ⟨a, ha2, Or.symm hab⟩
        rw [hcl2 b hb1] at hc
        exact Bool.noConfusion hc
      · exact hc2 a ha2 b hb2 hab
    have hnonempty : multiply_minterms exp1 exp2 ≠ [] := by
      rw [hmm]
      intro hemp
      rcases List.append_eq_nil.mp hemp with ⟨he1, he2⟩
      subst he1
      have : exp2.filter (fun y => decide (y ∉ ([] : List PyStr))) = exp2 := by
        apply List.filter_eq_self.mpr
        intro a _
        simp
      rw [this] at he2
      exact hne ⟨rfl, he2⟩
    refine ⟨⟨fun h => absurd h hnonempty, fun h => absurd h hnopair⟩, fun _ => ⟨hmm, ?_, ?_⟩⟩
    · rw [hmm]
      refine List.Nodup.append hn1 (List.Nodup.filter _ hn2) ?_
      intro a ha1 ha2
      have := List.of_mem_filter ha2
      simp at this
      exact this ha1
    · intro z
      rw [hmm]
      simp only [List.mem_append, List.mem_filter]
      constructor
      · rintro (h | ⟨h, _⟩)
        · exact Or.inl h
        · exact Or.inr h
      · rintro (h | h)
        · exact Or.inl h
        · by_cases hz : z ∈ exp1
          · exact Or.inl hz
          · exact Or.inr ⟨h, by simpa using hz⟩

/-- Witness for `c9_amended` at the terms `{a}` and `{b'}`: no clash, and the
product is the union `{a, b'}`. -/
theorem c9_witness :
    ((∀ x ∈ [pystr "a"], wfLitB x = true) ∧ (∀ y ∈ [pystr "b'"], wfLitB y = true) ∧
     ([pystr "a"] : List PyStr).Nodup ∧ ([pystr "b'"] : List PyStr).Nodup ∧
     (∀ x ∈ [pystr "a"], ∀ x2 ∈ [pystr "a"], ¬ isComplement x x2) ∧
     (∀ y ∈ [pystr "b'"], ∀ y2 ∈ [pystr "b'"], ¬ isComplement y y2) ∧
     ¬ ([pystr "a"] = ([] : List PyStr) ∧ [pystr "b'"] = ([] : List PyStr))) ∧
    ((multiply_minterms [pystr "a"] [pystr "b'"] = [] ↔
      ∃ a ∈ [pystr "a"] ++ [pystr "b'"], ∃ b ∈ [pystr "a"] ++ [pystr "b'"],
        isComplement a b) ∧
    ((¬ ∃ a ∈ [pystr "a"] ++ [pystr "b'"], ∃ b ∈ [pystr "a"] ++ [pystr "b'"],
        isComplement a b) →
      multiply_minterms [pystr "a"] [pystr "b'"] =
        [pystr "a"] ++ [pystr "b'"].filter (fun y => decide (y ∉ [pystr "a"])) ∧
      (multiply_minterms [pystr "a"] [pystr "b'"]).Nodup ∧
      (∀ z, z ∈ multiply_minterms [pystr "a"] [pystr "b'"] ↔
        z ∈ [pystr "a"] ∨ z ∈ [pystr "b'"]))) :=
  ⟨⟨by decide, by decide, by decide, by decide, by decide, by decide, by decide⟩,
   c9_amended [pystr "a"] [pystr "b'"] (by decide) (by decide) (by decide) (by decide)
     (by decide) (by decide) (by decide)⟩

/-! ## Claim C8: the truth-table generator -/

/-- Each encoding has exactly `n` bits. -/
theorem natToBits_length (n : Nat) : ∀ i, (natToBits n i).length = n := by
  induction n with
  | zero => intro i; rfl
  | succ n ih => intro i; simp [natToBits, ih]

/-- Distributing the two-way extension over an enumerated list doubles the
enumeration, with the last position varying fastest. -/
theorem range_map_flatMap (f : Nat → List Nat) :
    ∀ m : Nat,
      ((List.range m).map f).flatMap (fun tuples => [tuples ++ [0], tuples ++ [1]]) =
        (List.range (2 * m)).map (fun i => f (i / 2) ++ [i % 2]) := by
  intro m
  induction m with
  | zero => simp
  | succ m ih =>
    have h2 : 2 * (m + 1) = (2 * m + 1) + 1 := by omega
    rw [List.range_succ, h2, List.range_succ, List.range_succ]
    simp only [List.map_append, List.flatMap_append, ih, List.map_cons, List.map_nil,
      List.flatMap_cons, List.flatMap_nil, List.append_nil]
    have hd0 : (2 * m) / 2 = m := by omega
    have hm0 : (2 * m) % 2 = 0 := by omega
    have hd1 : (2 * m + 1) / 2 = m := by omega
    have hm1 : (2 * m + 1) % 2 = 1 := by omega
    rw [hd0, hm0, hd1, hm1]
    simp

/-- The product `itertools.product([0,1], repeat = n)` is the list of the
`2 ^ n` binary encodings, in counting order. -/
theorem prod01_eq (n : Nat) : prod01 n = (List.range (2 ^ n)).map (natToBits n) := by
  induction n with
  | zero => rfl
  | succ n ih =>
    show (prod01 n).flatMap _ = _
    rw [ih, range_map_flatMap (natToBits n) (2 ^ n)]
    have h2 : 2 * 2 ^ n = 2 ^ (n + 1) := by rw [Nat.pow_succ]; omega
    rw [h2]
    rfl

/-- Every row of the product has one entry per variable position. -/
theorem prod01_row_length (n : Nat) (row : List Nat) (h : row ∈ prod01 n) :
    row.length = n := by
  rw [prod01_eq] at h
  obtain ⟨i, _, rfl⟩ := List.mem_map.mp h
  exact natToBits_length n i

/-- There are exactly `2 ^ n` context rows. -/
theorem evaluate_ast_row_length (vars : List PyStr) :
    (evaluate_ast_row vars).length = 2 ^ vars.length := by
  simp [evaluate_ast_row, prod01_eq]

/-- Row `i` of the generated contexts binds the variables, in canonical
order, to the bits of `i` (most significant bit first, so the last variable
iterates fastest). -/
theorem evaluate_ast_row_get (vars : List PyStr) (i : Nat) (h : i < 2 ^ vars.length) :
    (evaluate_ast_row vars)[i]? = some (vars.zip (natToBits vars.length i)) := by
  simp [evaluate_ast_row, prod01_eq, List.getElem?_map, List.getElem?_range, h]

/-- Looking a bound variable up in a zipped context row succeeds. -/
theorem ctxLookup_zip_isSome (vars : List PyStr) :
    ∀ (row : List Nat) (v : PyStr), v ∈ vars → row.length = vars.length →
      (ctxLookup v (vars.zip row)).isSome = true := by
  induction vars with
  | nil => intro row v hv _; simp at hv
  | cons a vars ih =>
    intro row v hv hl
    rcases row with _ | ⟨b, row⟩
    · simp at hl
    · simp only [List.zip_cons_cons, ctxLookup]
      by_cases hav : a = v
      · simp [hav]
      · rw [if_neg hav]
        apply ih row v
        · rcases List.mem_cons.mp hv with h | h
          · exact absurd h.symm hav
          · exact h
        · simpa using hl

mutual

/-- Evaluation succeeds on any context binding every referenced variable. -/
theorem evaluate_total (a : Ast) (ctx : Ctx)
    (h : ∀ v ∈ astVars a, (ctxLookup v ctx).isSome = true) :
    (evaluate a ctx).isSome = true := by
  cases a with
  | notExpression s =>
    obtain ⟨b, hb⟩ :=
      Option.isSome_iff_exists.mp (evaluate_total s ctx (by simpa [astVars] using h))
    simp [evaluate, hb]
  | andExpression l =>
    simpa [evaluate] using evalAndList_total l ctx (by simpa [astVars] using h)
  | orExpression l =>
    simpa [evaluate] using evalOrList_total l ctx (by simpa [astVars] using h)
  | parenthesizedSymbol s =>
    simpa [evaluate] using evaluate_total s ctx (by simpa [astVars] using h)
  | variableSymbol v =>
    obtain ⟨b, hb⟩ := Option.isSome_iff_exists.mp (h v (by simp [astVars]))
    simp [evaluate, hb]
  | literalSymbol b => simp [evaluate]

/-- Totality of the conjunction evaluator. -/
theorem evalAndList_total (l : List Ast) (ctx : Ctx)
    (h : ∀ v ∈ astVarsList l, (ctxLookup v ctx).isSome = true) :
    (evalAndList l ctx).isSome = true := by
  cases l with
  | nil => simp [evalAndList]
  | cons t ts =>
    obtain ⟨b, hb⟩ := Option.isSome_iff_exists.mp
      (evaluate_total t ctx (fun v hv => h v (by simp [astVarsList, hv])))
    cases b with
    | true =>
      simpa [evalAndList, hb] using
        evalAndList_total ts ctx (fun v hv => h v (by simp [astVarsList, hv]))
    | false => simp [evalAndList, hb]

/-- Totality of the disjunction evaluator. -/
theorem evalOrList_total (l : List Ast) (ctx : Ctx)
    (h : ∀ v ∈ astVarsList l, (ctxLookup v ctx).isSome = true) :
    (evalOrList l ctx).isSome = true := by
  cases l with
  | nil => simp [evalOrList]
  | cons t ts =>
    obtain ⟨b, hb⟩ := Option.isSome_iff_exists.mp
      (evaluate_total t ctx (fun v hv => h v (by simp [astVarsList, hv])))
    cases b with
    | true => simp [evalOrList, hb]
    | false =>
      simpa [evalOrList, hb] using
        evalOrList_total ts ctx (fun v hv => h v (by simp [astVarsList, hv]))
end

/-- A pointwise-successful `optMapM` returns a parallel list of results. -/
theorem optMapM_isSome {α β : Type} (f : α → Option β) :
    ∀ l : List α, (∀ x ∈ l, (f x).isSome = true) →
      ∃ ys, optMapM f l = some ys ∧ ys.length = l.length ∧
        ∀ (i : Nat) (x : α), l[i]? = some x → ∃ b, f x = some b ∧ ys[i]? = some b := by
  intro l
  induction l with
  | nil =>
    intro _
    exact ⟨[], rfl, rfl, by intro i x h; simp at h⟩
  | cons x xs ih =>
    intro h
    obtain ⟨ys, hys, hlen, hpt⟩ := ih (fun z hz => h z (List.mem_cons_of_mem _ hz))
    obtain ⟨b, hb⟩ := Option.isSome_iff_exists.mp (h x (List.mem_cons_self x xs))
    refine ⟨b :: ys, by simp [optMapM, hb, hys], by simp [hlen], ?_⟩
    intro i z hz
    cases i with
    | zero =>
      simp only [List.getElem?_cons_zero, Option.some.injEq] at hz
      subst hz
      exact ⟨b, hb, by simp⟩
    | succ i =>
      simp only [List.getElem?_cons_succ] at hz ⊢
      exact hpt i z hz

/-- Claim C8 (confirmed): for every canonical variable order of length `n`
and every AST over those variables, the generator produces exactly `2 ^ n`
contexts in binary counting order (row `i` binds the variables to the bits of
`i`, last variable fastest), and `generate_truths` produces a parallel result
list of the same length holding the expression's value on each row. -/
theorem c8_truth_table (vars : List PyStr) (a : Ast)
    (hb : ∀ v ∈ astVars a, v ∈ vars) :
    (evaluate_ast_row vars).length = 2 ^ vars.length ∧
    (∀ i, i < 2 ^ vars.length →
      (evaluate_ast_row vars)[i]? = some (vars.zip (natToBits vars.length i))) ∧
    ∃ results, generate_truths a vars = some results ∧
      results.length = 2 ^ vars.length ∧
      ∀ i, i < 2 ^ vars.length →
        ∃ b, evaluate a (vars.zip (natToBits vars.length i)) = some b ∧
          results[i]? = some b := by
  refine ⟨evaluate_ast_row_length vars, fun i h => evaluate_ast_row_get vars i h, ?_⟩
  have hrows : ∀ ctx ∈ evaluate_ast_row vars, ((evaluate a) ctx).isSome = true := by
    intro ctx hctx
    obtain ⟨row, hrow, rfl⟩ := List.mem_map.mp hctx
    apply evaluate_total
    intro v hv
    exact ctxLookup_zip_isSome vars row v (hb v hv) (prod01_row_length vars.length row hrow)
  obtain ⟨ys, hys, hlen, hpt⟩ := optMapM_isSome (evaluate a) (evaluate_ast_row vars) hrows
  refine ⟨ys, hys, by rw [hlen, evaluate_ast_row_length], ?_⟩
  intro i h
  obtain ⟨b, hfb, hyb⟩ := hpt i _ (evaluate_ast_row_get vars i h)
  exact ⟨b, hfb, hyb⟩

/-- Witness for `c8_truth_table` at the single-variable expression `A`: two
rows `A=0` and `A=1` with parallel results. -/
theorem c8_witness :
    (∀ v ∈ astVars (Ast.variableSymbol (pystr "A")), v ∈ [pystr "A"]) ∧
    ((evaluate_ast_row [pystr "A"]).length = 2 ^ 1 ∧
    (∀ i, i < 2 ^ 1 →
      (evaluate_ast_row [pystr "A"])[i]? =
        some ([pystr "A"].zip (natToBits 1 i))) ∧
    ∃ results, generate_truths (Ast.variableSymbol (pystr "A")) [pystr "A"] =
        some results ∧
      results.length = 2 ^ 1 ∧
      ∀ i, i < 2 ^ 1 →
        ∃ b, evaluate (Ast.variableSymbol (pystr "A"))
            ([pystr "A"].zip (natToBits 1 i)) = some b ∧
          results[i]? = some b) :=
  ⟨by decide, c8_truth_table [pystr "A"] (Ast.variableSymbol (pystr "A")) (by decide)⟩

/-! ## Claim C7: totality of the parser

The fueled parsers never run out of fuel when started with
`parseFuel s = 4 * len + 8`: the lemmas below bound the fuel each parser
needs by `4 * (remaining characters) + constant`, by one simultaneous
induction on the fuel. -/

/-- The whitespace skip never moves backwards. -/
theorem skipSpacesAux_ge (t : List Char) :
    ∀ (fuel p : Nat), p ≤ skipSpacesAux t fuel p := by
  intro fuel
  induction fuel with
  | zero => intro p; exact Nat.le_refl p
  | succ fuel ih =>
    intro p
    simp only [skipSpacesAux]
    split
    · exact Nat.le_trans (Nat.le_succ p) (ih (p + 1))
    · exact Nat.le_refl p

/-- The whitespace skip never moves backwards. -/
theorem skipSpaces_ge (t : List Char) (p : Nat) : p ≤ skipSpaces t p :=
  skipSpacesAux_ge t (t.length - p) p

/-- At an in-range letter position the letter run is nonempty. -/
theorem alphaRun_pos (t : List Char) (q : Nat) (h1 : q < t.length)
    (h2 : (t.getD q ' ').isAlpha = true) : 1 ≤ (alphaRun t q).length := by
  obtain ⟨k, hk⟩ : ∃ k, t.length - q = k + 1 := ⟨t.length - q - 1, by omega⟩
  unfold alphaRun
  rw [hk]
  simp only [alphaRunAux, if_pos (And.intro h1 h2)]
  simp

/-- A successfully consumed token strictly advances the position and strictly
shrinks the remaining input. -/
theorem consume_token_some (t : List Char) (p : Nat) (tok : PyStr)
    (h : (consume_token t p).1 = some tok) :
    p < (consume_token t p).2 ∧ t.length - (consume_token t p).2 < t.length - p := by
  have hq : p ≤ skipSpaces t p := skipSpaces_ge t p
  unfold consume_token consume_token_at at h ⊢
  by_cases hlt : skipSpaces t p < t.length
  · rw [if_pos hlt] at h ⊢
    by_cases hal : (t.getD (skipSpaces t p) ' ').isAlpha = true
    · rw [if_pos hal] at h ⊢
      have := alphaRun_pos t (skipSpaces t p) hlt hal
      constructor <;> simp only [] <;> omega
    · rw [if_neg hal] at h ⊢
      constructor <;> simp only [] <;> omega
  · rw [if_neg hlt] at h
    exact Option.noConfusion h

/-- `parse_variable_symbol` needs no fuel and, on success, consumed a token. -/
theorem parse_variable_symbol_good (t : List Char) (st : PSt) :
    noNF (parse_variable_symbol t st) ∧ okAdvLt (parse_variable_symbol t st) st.pos := by
  unfold parse_variable_symbol
  cases hco : consume_token t st.pos with
  | mk o p =>
    cases o with
    | none =>
      refine ⟨fun hc => ?_, fun a st2 hok => ?_⟩
      · injection hc with h
        exact PErr.noConfusion h
      · exact Except.noConfusion hok
    | some name =>
      dsimp only
      by_cases hal : py_isalpha name = true
      · rw [if_pos hal]
        refine ⟨fun hc => Except.noConfusion hc, fun a st2 hok => ?_⟩
        cases hok
        have hcs := (consume_token_some t st.pos name (by rw [hco])).1
        rw [hco] at hcs
        exact hcs
      · rw [if_neg hal]
        refine ⟨fun hc => ?_, fun a st2 hok => Except.noConfusion hok⟩
        injection hc with h
        exact PErr.noConfusion h

/-- An error result is fuel-clean when its payload is not `noFuel`. -/
theorem err_noNF {e : PErr} (hne : e ≠ .noFuel) : noNF (.error e : PRes) :=
  fun hc => hne (by injection hc)

/-- An error result vacuously satisfies the strict advance property. -/
theorem err_okAdvLt (e : PErr) (p : Nat) : okAdvLt (.error e : PRes) p :=
  fun _ _ hok => Except.noConfusion hok

/-- An error result vacuously satisfies the lax advance property. -/
theorem err_okAdvLe (e : PErr) (p : Nat) : okAdvLe (.error e : PRes) p :=
  fun _ _ hok => Except.noConfusion hok

/-- A fuel-clean result that is an error has a non-`noFuel` payload. -/
theorem noNF_of_eq {r : PRes} {e : PErr} (h : r = .error e) (hn : noNF r) :
    e ≠ .noFuel := fun hef => hn (h.trans (by rw [hef]))

/-- A token that belongs to an alternatives list is present. -/
theorem tokMem_some {o : Option PyStr} {l : List PyStr} (h : tokMem o l = true) :
    ∃ tok, o = some tok := by
  cases o with
  | none => simp [tokMem] at h
  | some tok => exact ⟨tok, rfl⟩

/-- `parse_literal` needs no fuel and, on success, consumed a token. -/
theorem parse_literal_good (t : List Char) (st : PSt) :
    noNF (parse_literal t st) ∧ okAdvLt (parse_literal t st) st.pos := by
  unfold parse_literal
  cases hco : consume_token t st.pos with
  | mk o p =>
    dsimp only
    by_cases hc1 : o ≠ some (pystr "1") ∧ o ≠ some (pystr "0")
    · rw [if_pos hc1]
      refine ⟨fun hc => ?_, fun a st2 hok => Except.noConfusion hok⟩
      injection hc with h
      exact PErr.noConfusion h
    · rw [if_neg hc1]
      refine ⟨fun hc => Except.noConfusion hc, fun a st2 hok => ?_⟩
      cases hok
      have hsome : ∃ tok, o = some tok := by
        push_neg at hc1
        by_cases h1 : o = some (pystr "1")
        · exact ⟨pystr "1", h1⟩
        · exact ⟨pystr "0", hc1 h1⟩
      obtain ⟨tok, rfl⟩ := hsome
      have hcs := (consume_token_some t st.pos tok (by rw [hco])).1
      rw [hco] at hcs
      exact hcs

/-- Fuel sufficiency for all seven mutually recursive parsers at once, by
induction on the fuel: with `4 * (remaining input) + c` fuel (`c` depending
on the parser), no parser returns the fuel marker, and a successful parse
moves the position forward (strictly, except for the two loops). -/
theorem parsers_total (t : List Char) :
    ∀ fuel : Nat,
      (∀ st : PSt, 4 * (t.length - st.pos) + 4 ≤ fuel →
        noNF (parse_or t fuel st) ∧ okAdvLt (parse_or t fuel st) st.pos) ∧
      (∀ (st : PSt) (terms : List Ast), 4 * (t.length - st.pos) + 3 ≤ fuel →
        noNF (parse_or_loop t fuel st terms) ∧
          okAdvLe (parse_or_loop t fuel st terms) st.pos) ∧
      (∀ st : PSt, 4 * (t.length - st.pos) + 3 ≤ fuel →
        noNF (parse_and t fuel st) ∧ okAdvLt (parse_and t fuel st) st.pos) ∧
      (∀ (st : PSt) (terms : List Ast), 4 * (t.length - st.pos) + 2 ≤ fuel →
        noNF (parse_and_loop t fuel st terms) ∧
          okAdvLe (parse_and_loop t fuel st terms) st.pos) ∧
      (∀ st : PSt, 4 * (t.length - st.pos) + 2 ≤ fuel →
        noNF (parse_symbol t fuel st) ∧ okAdvLt (parse_symbol t fuel st) st.pos) ∧
      (∀ st : PSt, 4 * (t.length - st.pos) + 1 ≤ fuel →
        noNF (parse_not t fuel st) ∧ okAdvLt (parse_not t fuel st) st.pos) ∧
      (∀ st : PSt, 4 * (t.length - st.pos) + 1 ≤ fuel →
        noNF (parse_parenthesized_symbol t fuel st) ∧
          okAdvLt (parse_parenthesized_symbol t fuel st) st.pos) := by
  intro fuel
  induction fuel with
  | zero =>
    exact ⟨fun st h => absurd h (by omega), fun st terms h => absurd h (by omega),
      fun st h => absurd h (by omega), fun st terms h => absurd h (by omega),
      fun st h => absurd h (by omega), fun st h => absurd h (by omega),
      fun st h => absurd h (by omega)⟩
  | succ fuel ih =>
    obtain ⟨ihOr, ihOrLoop, ihAnd, ihAndLoop, ihSym, ihNot, ihParen⟩ := ih
    refine ⟨?_, ?_, ?_, ?_, ?_, ?_, ?_⟩
    -- parse_or
    · intro st h
      have hAnd := ihAnd st (by omega)
      simp only [parse_or]
      cases hA : parse_and t fuel st with
      | error e => exact ⟨err_noNF (noNF_of_eq hA hAnd.1), err_okAdvLt e st.pos⟩
      | ok pair =>
        obtain ⟨a, st1⟩ := pair
        have hlt : st.pos < st1.pos := hAnd.2 a st1 hA
        have hLoop := ihOrLoop st1 [a] (by omega)
        exact ⟨hLoop.1, fun a2 st2 hok => Nat.lt_of_lt_of_le hlt (hLoop.2 a2 st2 hok)⟩
    -- parse_or_loop
    · intro st terms h
      simp only [parse_or_loop]
      by_cases htok : tokMem (peek_token t st.pos) OR_ALTERNATIVES = true
      · rw [if_pos htok]
        obtain ⟨tok, htk⟩ := tokMem_some htok
        rw [peek_token] at htk
        obtain ⟨hcs1, hcs2⟩ := consume_token_some t st.pos tok htk
        have hAnd := ihAnd ⟨(consume_token t st.pos).2, st.vars⟩
          (by show 4 * (t.length - (consume_token t st.pos).2) + 3 ≤ fuel; omega)
        cases hA : parse_and t fuel ⟨(consume_token t st.pos).2, st.vars⟩ with
        | error e => exact ⟨err_noNF (noNF_of_eq hA hAnd.1), err_okAdvLe e st.pos⟩
        | ok pair =>
          obtain ⟨b, st2⟩ := pair
          have hlt2 : (consume_token t st.pos).2 < st2.pos := hAnd.2 b st2 hA
          have hLoop := ihOrLoop st2 (terms ++ [b]) (by omega)
          refine ⟨hLoop.1, fun a2 st3 hok => ?_⟩
          have := hLoop.2 a2 st3 hok
          omega
      · rw [if_neg htok]
        exact ⟨fun hc => Except.noConfusion hc,
          fun a2 st2 hok => by cases hok; exact Nat.le_refl _⟩
    -- parse_and
    · intro st h
      have hSym := ihSym st (by omega)
      simp only [parse_and]
      cases hA : parse_symbol t fuel st with
      | error e => exact ⟨err_noNF (noNF_of_eq hA hSym.1), err_okAdvLt e st.pos⟩
      | ok pair =>
        obtain ⟨a, st1⟩ := pair
        have hlt : st.pos < st1.pos := hSym.2 a st1 hA
        have hLoop := ihAndLoop st1 [a] (by omega)
        exact ⟨hLoop.1, fun a2 st2 hok => Nat.lt_of_lt_of_le hlt (hLoop.2 a2 st2 hok)⟩
    -- parse_and_loop
    · intro st terms h
      simp only [parse_and_loop]
      by_cases htok : tokMem (peek_token t st.pos) AND_ALTERNATIVES = true
      · rw [if_pos htok]
        obtain ⟨tok, htk⟩ := tokMem_some htok
        rw [peek_token] at htk
        obtain ⟨hcs1, hcs2⟩ := consume_token_some t st.pos tok htk
        have hSym := ihSym ⟨(consume_token t st.pos).2, st.vars⟩
          (by show 4 * (t.length - (consume_token t st.pos).2) + 2 ≤ fuel; omega)
        cases hA : parse_symbol t fuel ⟨(consume_token t st.pos).2, st.vars⟩ with
        | error e => exact ⟨err_noNF (noNF_of_eq hA hSym.1), err_okAdvLe e st.pos⟩
        | ok pair =>
          obtain ⟨b, st2⟩ := pair
          have hlt2 : (consume_token t st.pos).2 < st2.pos := hSym.2 b st2 hA
          have hLoop := ihAndLoop st2 (terms ++ [b]) (by omega)
          refine ⟨hLoop.1, fun a2 st3 hok => ?_⟩
          have := hLoop.2 a2 st3 hok
          omega
      · rw [if_neg htok]
        exact ⟨fun hc => Except.noConfusion hc,
          fun a2 st2 hok => by cases hok; exact Nat.le_refl _⟩
    -- parse_symbol
    · intro st h
      simp only [parse_symbol]
      by_cases h1 : peek_token t st.pos = some (pystr "(")
      · rw [if_pos h1]
        exact ihParen st (by omega)
      · rw [if_neg h1]
        by_cases h2 : tokMem (peek_token t st.pos) NOT_ALTERNATIVES = true
        · rw [if_pos h2]
          exact ihNot st (by omega)
        · rw [if_neg h2]
          by_cases h3 : peek_token t st.pos = some (pystr "1") ∨
              peek_token t st.pos = some (pystr "0")
          · rw [if_pos h3]
            exact parse_literal_good t st
          · rw [if_neg h3]
            exact parse_variable_symbol_good t st
    -- parse_not
    · intro st h
      simp only [parse_not]
      cases hco : consume_token t st.pos with
      | mk o p =>
        dsimp only
        by_cases hn : tokMem o NOT_ALTERNATIVES = true
        · rw [if_neg (not_not_intro hn)]
          obtain ⟨tok, rfl⟩ := tokMem_some hn
          have hcs := consume_token_some t st.pos tok (by rw [hco])
          rw [hco] at hcs
          dsimp only at hcs
          obtain ⟨hcs1, hcs2⟩ := hcs
          have hSym := ihSym ⟨p, st.vars⟩ (by show 4 * (t.length - p) + 2 ≤ fuel; omega)
          cases hS : parse_symbol t fuel ⟨p, st.vars⟩ with
          | error e => exact ⟨err_noNF (noNF_of_eq hS hSym.1), err_okAdvLt e st.pos⟩
          | ok pair =>
            obtain ⟨s2, st2⟩ := pair
            have hlt2 : p < st2.pos := hSym.2 s2 st2 hS
            refine ⟨fun hc => Except.noConfusion hc, fun a2 st3 hok => ?_⟩
            cases hok
            omega
        · rw [if_pos hn]
          exact ⟨err_noNF (fun hc => PErr.noConfusion hc), err_okAdvLt _ st.pos⟩
    -- parse_parenthesized_symbol
    · intro st h
      simp only [parse_parenthesized_symbol]
      cases hco : consume_token t st.pos with
      | mk o p =>
        dsimp only
        by_cases hpar : o = some (pystr "(")
        · rw [if_neg (not_not_intro hpar)]
          subst hpar
          have hcs := consume_token_some t st.pos (pystr "(") (by rw [hco])
          rw [hco] at hcs
          dsimp only at hcs
          obtain ⟨hcs1, hcs2⟩ := hcs
          have hOr := ihOr ⟨p, st.vars⟩ (by show 4 * (t.length - p) + 4 ≤ fuel; omega)
          cases hO : parse_or t fuel ⟨p, st.vars⟩ with
          | error e => exact ⟨err_noNF (noNF_of_eq hO hOr.1), err_okAdvLt e st.pos⟩
          | ok pair =>
            obtain ⟨e2, st2⟩ := pair
            dsimp only
            have hlt2 : p < st2.pos := hOr.2 e2 st2 hO
            by_cases hcl : (consume_token t st2.pos).1 = some (pystr ")")
            · rw [if_neg (not_not_intro hcl)]
              obtain ⟨hcs31, hcs32⟩ := consume_token_some t st2.pos (pystr ")") hcl
              refine ⟨fun hc => Except.noConfusion hc, fun a2 st3 hok => ?_⟩
              cases hok
              show st.pos < (consume_token t st2.pos).2
              omega
            · rw [if_pos hcl]
              exact ⟨err_noNF (fun hc => PErr.noConfusion hc), err_okAdvLt _ st.pos⟩
        · rw [if_pos hpar]
          exact ⟨err_noNF (fun hc => PErr.noConfusion hc), err_okAdvLt _ st.pos⟩

/-- Claim C7 (confirmed): for every input text, `parse` either returns a root
AST (with the variable list) or fails with a `SyntaxError`-kind error (a
raised `Exception` message) - never anything else; and in particular
unconsumed trailing input (`"A B"`, `"A)"`), a non-alphabetic token in value
position after falling through to parse-as-variable (`"A + %"`), a missing
parenthesis (`"(A"`), and an empty/absent variable token (`""`, `"!"`) all
fail with such an error. -/
theorem c7_parse_total_and_errors :
    (∀ s : String,
      (∃ a vs, parse s = .ok (a, vs)) ∨ (∃ msg, parse s = .error (.syn msg))) ∧
    parse "A B" = .error (.syn "Error: Parse error") ∧
    parse "A + %" = .error (.syn "Error: variable not detected") ∧
    parse "(A" = .error (.syn "Error: Missing )") ∧
    parse "A)" = .error (.syn "Error: Parse error") ∧
    parse "" = .error (.syn "Error: variable not detected") ∧
    parse "!" = .error (.syn "Error: variable not detected") := by
  refine ⟨?_, rfl, rfl, rfl, rfl, rfl, rfl⟩
  intro s
  have hOr := (parsers_total s.data (parseFuel s)).1 ⟨0, []⟩
    (by
      show 4 * (s.data.length - 0) + 4 ≤ parseFuel s
      have hlen : s.data.length = s.length := rfl
      rw [parseFuel]
      omega)
  unfold parse
  cases hp : parse_or s.data (parseFuel s) ⟨0, []⟩ with
  | error e =>
    cases e with
    | syn msg => exact Or.inr ⟨msg, rfl⟩
    | noFuel => exact absurd hp hOr.1
  | ok pair =>
    obtain ⟨a, st⟩ := pair
    dsimp only
    cases ho : consume_token s.data st.pos with
    | mk o p =>
      cases o with
      | some tok => exact Or.inr ⟨"Error: Parse error", rfl⟩
      | none => exact Or.inl ⟨a, sortStrs st.vars, rfl⟩

end QMBool
